import Mathlib

/-!
Verification development for the Spyking-Circus template-matching engines
(`spikeinterface/sortingcomponents/matching/circus.py`): the overlap builder
`compute_overlaps`, the OMP peeler (`CircusOMPPeeler`) and the greedy peeler
(`CircusPeeler`).

The Python code is embedded shallowly over exact rationals: float32 arrays
become functions into `ℚ`, `-np.inf` sentinel entries become `⊥ : WithBot ℚ`,
and `np.sqrt` inside the OMP Cholesky update is an explicit function parameter
(its value feeds only later iterations, never the control flow facts proved
here).  The one place where the numeric value of a square root matters — the
stopping-threshold formula of `initialize_and_check_kwargs` — is embedded over
`ℝ` with `Real.sqrt`.
-/

namespace Circus

/-- Detection record, mirroring the fields of `spike_dtype` that the matching
engines fill in (`segment_index` is set by the caller and omitted). -/
structure Spike where
  sample : ℤ
  channel : ℕ
  cluster : ℕ
  amplitude : ℚ
deriving DecidableEq

/-- Order on detection records by `sample_index`, the key of the final
`np.argsort(spikes["sample_index"])`. -/
def sampleLe (a b : Spike) : Prop := a.sample ≤ b.sample

instance : DecidableRel sampleLe := fun a b => inferInstanceAs (Decidable (a.sample ≤ b.sample))

instance : IsTotal Spike sampleLe := ⟨fun a b => le_total a.sample b.sample⟩

instance : IsTrans Spike sampleLe := ⟨fun _ _ _ h1 h2 => le_trans h1 h2⟩

/-- `spikes[np.argsort(spikes["sample_index"])]`: sort the detection array by
`sample_index`. -/
def sortSpikes (l : List Spike) : List Spike := List.insertionSort sampleLe l

/-- `dense_templates`: template `i` of length `L`, read as `0` outside its
time range (slicing never reaches those indices in the code; this makes the
embedding total). -/
def padT (L : ℕ) (T : ℕ → ℕ → ℕ → ℚ) (i t c : ℕ) : ℚ :=
  if t < L then T i t c else 0

/-- One entry of `overlaps[delay] = source.dot(target.T)` in
`compute_overlaps`, where `source = dense_templates[:, :delay, :]` and
`target = dense_templates[:, num_samples - delay:, :]`:
`lagProducts L C T d i m = Σ_{t<d} Σ_{c<C} T[i,t,c] · T[m, L-d+t, c]`. -/
def lagProducts (L C : ℕ) (T : ℕ → ℕ → ℕ → ℚ) (d i m : ℕ) : ℚ :=
  ∑ t ∈ Finset.range d, ∑ c ∈ Finset.range C, padT L T i t c * padT L T m (L - d + t) c

/-- `compute_overlaps`, entrywise.  `compute_overlaps L C T i m j` is entry
`(m, j)` of the sparse matrix `new_overlaps[i]`, i.e. `overlaps[j][i, m]`:
for `j ≤ L` the direct product at delay `j`; for `j > L` the transposed
mirror `overlaps[size - delay + 1] = overlaps[delay].T` with
`size = 2L - 1`, so column `j` holds the transpose of delay `2L - j`. -/
def compute_overlaps (L C : ℕ) (T : ℕ → ℕ → ℕ → ℚ) (i m j : ℕ) : ℚ :=
  if j ≤ L then lagProducts L C T j i m else lagProducts L C T (2 * L - j) m i

/-- Line 196 of `circus.py`, entry `n` of
`omp_min_sps * np.maximum(d["norms"], np.sqrt(d["noise_levels"].sum() * d["num_samples"]))`
computed by `CircusOMPPeeler.initialize_and_check_kwargs` (the per-channel
noise levels are summed as they are). -/
noncomputable def stop_criteria (omp_min_sps : ℝ) (norms : ℕ → ℝ) (noise_levels : ℕ → ℝ)
    (C L : ℕ) (n : ℕ) : ℝ :=
  omp_min_sps * max (norms n) (Real.sqrt ((∑ c ∈ Finset.range C, noise_levels c) * L))

/-- The formula asserted by the specification:
`τ_n = p · max(‖W_n‖, √((Σ_c noise_c²) · L))`, the per-channel noise levels
being squared before being summed under the square root. -/
noncomputable def stop_criteria_claimed (omp_min_sps : ℝ) (norms : ℕ → ℝ) (noise_levels : ℕ → ℝ)
    (C L : ℕ) (n : ℕ) : ℝ :=
  omp_min_sps * max (norms n) (Real.sqrt ((∑ c ∈ Finset.range C, noise_levels c ^ 2) * L))

/-- The amended formula: `τ_n = p · max(‖W_n‖, √((Σ_c noise_c) · L))`, the
per-channel noise levels being summed (not squared) under the square root. -/
noncomputable def stop_criteria_summed (omp_min_sps : ℝ) (norms : ℕ → ℝ) (noise_levels : ℕ → ℝ)
    (C L : ℕ) (n : ℕ) : ℝ :=
  omp_min_sps * max (norms n) (Real.sqrt (L * ∑ c ∈ Finset.range C, noise_levels c))

/-- A concrete normalized template bank: one template, `L = 2` samples,
`C = 1` channel, waveform `(3/5, 4/5)` of unit Frobenius norm. -/
def Tc : ℕ → ℕ → ℕ → ℚ := fun _ t _ => if t = 0 then 3/5 else 4/5

/-- `np.searchsorted(a, v)` (left side) on a length-`P` array read through
`f`: the number of indices `j < P` with `f j < v`.  On a sorted array this
is the left insertion point of `v`. -/
def countLt (P : ℕ) (f : ℕ → ℤ) (v : ℤ) : ℕ :=
  ((Finset.range P).filter (fun j => f j < v)).card

/-- The score-tensor update of one iteration of the `CircusPeeler`
while-loop (lines 690–700): with `A = scalar_products[n*, p*]`,
`peak_data = peak_sample_index - peak_sample_index[p*]` and
`is_valid_nn = np.searchsorted(peak_data, [-neighbor_window, neighbor_window + 1])`,
the columns in `[is_valid_nn[0], is_valid_nn[1])` receive
`+= -A * overlaps[n*][:, peak_data + neighbor_window]` and row `n*` of those
columns is then set to `-np.inf` (`⊥`).  `-np.inf` entries stay `-np.inf`
under the finite addition, hence the `WithBot.map`.  The selected entry is
valid (`> min_sps`) whenever this step runs, so `unbot' 0` reads its finite
value; `toNat` totalizes the column index, which is nonnegative inside the
window of a sorted peak array. -/
def greedyStepS (P L : ℕ) (overlaps : ℕ → ℕ → ℕ → ℚ) (times : ℕ → ℤ)
    (S : ℕ → ℕ → WithBot ℚ) (nst pst : ℕ) : ℕ → ℕ → WithBot ℚ :=
  let A : ℚ := (S nst pst).unbot' 0
  let lo := countLt P (fun i => times i - times pst) (-((L : ℤ) - 1))
  let hi := countLt P (fun i => times i - times pst) (L : ℤ)
  fun n q =>
    if lo ≤ q ∧ q < hi then
      if n = nst then ⊥
      else
        WithBot.map
          (fun x => x + (-A * overlaps nst n (times q - times pst + ((L : ℤ) - 1)).toNat))
          (S n q)
    else S n q

/-- Loop state of `CircusPeeler.main_function`: the score tensor (with
`-np.inf` as `⊥`) and the detections emitted so far. -/
structure GreedyState where
  S : ℕ → ℕ → WithBot ℚ
  spikes : List Spike

/-- `is_valid = (scalar_products > min_sps) & (scalar_products < max_sps)`,
listed in row-major (cluster-major) order as `idx_lookup` flattens it. -/
def greedyValidPairs (N P : ℕ) (minSps maxSps : ℕ → ℚ) (S : ℕ → ℕ → WithBot ℚ) :
    List (ℕ × ℕ) :=
  (List.range N).flatMap fun n =>
    (List.range P).filterMap fun p =>
      if (minSps n : WithBot ℚ) < S n p ∧ S n p < (maxSps n : WithBot ℚ) then some (n, p)
      else none

/-- `scalar_products[is_valid].argmax()` decoded through `idx_lookup`: the
first pair, in row-major order over the valid entries, whose score attains
the maximum of the valid scores. -/
def pickBest (pairs : List (ℕ × ℕ)) (S : ℕ → ℕ → WithBot ℚ) : Option (ℕ × ℕ) :=
  let mx := (pairs.map fun np => S np.1 np.2).foldr max ⊥
  pairs.find? fun np => decide (S np.1 np.2 = mx)

/-- Selection of `(best_cluster_ind, peak_index)` in the greedy loop. -/
def greedyPick (N P : ℕ) (minSps maxSps : ℕ → ℚ) (s : GreedyState) : Option (ℕ × ℕ) :=
  pickBest (greedyValidPairs N P minSps maxSps s.S) s.S

/-- One full iteration body of the greedy while-loop at the selected pair:
score update plus emission of
`(peak_sample_index[p*], peak_chan_ind[p*], n*, best_amplitude)` (the
division of the amplitudes by the template norms happens after the loop). -/
def greedyStepAt (P L : ℕ) (overlaps : ℕ → ℕ → ℕ → ℚ) (times : ℕ → ℤ) (chans : ℕ → ℕ)
    (s : GreedyState) (nst pst : ℕ) : GreedyState :=
  { S := greedyStepS P L overlaps times s.S nst pst,
    spikes := s.spikes ++ [⟨times pst, chans pst, nst, (s.S nst pst).unbot' 0⟩] }

/-- The greedy while-loop (`while np.any(is_valid)`), fuel-indexed: stops
when no valid entry remains or the fuel runs out.  `greedy_loop_terminates`
shows fuel `N * P` always reaches the fixpoint, so the fuelled model with
that much fuel computes exactly what the unbounded loop computes. -/
def greedyIter (N P L : ℕ) (minSps maxSps : ℕ → ℚ) (overlaps : ℕ → ℕ → ℕ → ℚ)
    (times : ℕ → ℤ) (chans : ℕ → ℕ) : ℕ → GreedyState → GreedyState
  | 0, s => s
  | fuel + 1, s =>
    match greedyPick N P minSps maxSps s with
    | none => s
    | some np =>
      greedyIter N P L minSps maxSps overlaps times chans fuel
        (greedyStepAt P L overlaps times chans s np.1 np.2)

/-- The set of `-np.inf` (`⊥`) entries of the `N × P` score tensor. -/
def botPairs (N P : ℕ) (S : ℕ → ℕ → WithBot ℚ) : Finset (ℕ × ℕ) :=
  (Finset.range N ×ˢ Finset.range P).filter (fun np => S np.1 np.2 = ⊥)

/-- A concrete score tensor, every entry the finite value `2`. -/
def Sc : ℕ → ℕ → WithBot ℚ := fun _ _ => ((2 : ℚ) : WithBot ℚ)

/-- The identity peak-time array: peak `i` at sample `i`. -/
def timesId : ℕ → ℤ := fun i => i

/-- Jitter expansion before deduplication (lines 644–648 of `circus.py`):
`jittered_peaks = peak_sample_index[:, None] + np.arange(-jitter, jitter)`
flattened row-major, masked by
`(jittered_peaks > 0) & (jittered_peaks < len(peak_traces))`, each expanded
peak keeping the channel of the peak it came from. -/
def jitterExpand (J : ℕ) (len : ℤ) (peaks : List (ℤ × ℕ)) : List (ℤ × ℕ) :=
  peaks.flatMap fun pc =>
    (List.range (2 * J)).filterMap fun (j : ℕ) =>
      if 0 < pc.1 + (j : ℤ) - (J : ℤ) ∧ pc.1 + (j : ℤ) - (J : ℤ) < len then
        some (pc.1 + (j : ℤ) - (J : ℤ), pc.2)
      else none

/-- The expansion as the claim words it: jittered times are kept when they
fall within the valid index range `[0, len)` of the margin-trimmed trace
(and no others are discarded). -/
def jitterExpandClaimed (J : ℕ) (len : ℤ) (peaks : List (ℤ × ℕ)) : List (ℤ × ℕ) :=
  peaks.flatMap fun pc =>
    (List.range (2 * J)).filterMap fun (j : ℕ) =>
      if 0 ≤ pc.1 + (j : ℤ) - (J : ℤ) ∧ pc.1 + (j : ℤ) - (J : ℤ) < len then
        some (pc.1 + (j : ℤ) - (J : ℤ), pc.2)
      else none

/-- `np.unique(..., return_index=True)` channel lookup: the channel of the
first entry of `l` carrying sample time `t` (expansion order). -/
def firstChanAt (l : List (ℤ × ℕ)) (t : ℤ) : ℕ :=
  ((l.find? fun pc => decide (pc.1 = t)).map Prod.snd).getD 0

/-- `np.unique(times, return_index=True)` applied to a (time, channel) list:
the sorted list of distinct times, each paired with the channel of its first
occurrence. -/
def dedupSortFirst (l : List (ℤ × ℕ)) : List (ℤ × ℕ) :=
  (List.insertionSort (α := ℤ) (· ≤ ·) (l.map Prod.fst).dedup).map fun t => (t, firstChanAt l t)

/-- Lines 644–650 of `circus.py`: jitter expansion followed by
deduplication by sample index. -/
def codeJitter (J : ℕ) (len : ℤ) (peaks : List (ℤ × ℕ)) : List (ℤ × ℕ) :=
  dedupSortFirst (jitterExpand J len peaks)

/-- The same pipeline with the claim's `[0, len)` validity mask. -/
def claimJitter (J : ℕ) (len : ℤ) (peaks : List (ℤ × ℕ)) : List (ℤ × ℕ) :=
  dedupSortFirst (jitterExpandClaimed J len peaks)

/-- `omp_tol = np.finfo(np.float32).eps = 2⁻²³`. -/
def ompTol : ℚ := 1 / 2 ^ 23

/-- Forward substitution
(`scipy.linalg.solve_triangular(M, b, trans=0, lower=1)`): entry `i` of the
solution `x` of the lower-triangular system `M x = b`. -/
def forwardSolve (M : ℕ → ℕ → ℚ) (b : ℕ → ℚ) (i : ℕ) : ℚ :=
  (b i - ∑ j ∈ (Finset.range i).attach, M i j.1 * forwardSolve M b j.1) / M i i
termination_by i
decreasing_by exact Finset.mem_range.mp j.2

/-- Back substitution on the transpose (the second phase of LAPACK `potrs`
with the lower Cholesky factor `M` of size `k × k`): entry `i` of the
solution `a` of `Mᵀ a = y`. -/
def backSolve (M : ℕ → ℕ → ℚ) (k : ℕ) (y : ℕ → ℚ) (i : ℕ) : ℚ :=
  (y i - ∑ j ∈ (Finset.Ico (i + 1) k).attach, M j.1 i * backSolve M k y j.1) / M i i
termination_by k - i
decreasing_by
  have h := Finset.mem_Ico.mp j.2
  omega

/-- The entries of `d` that `CircusOMPPeeler.main_function` reads (for the
working `vicinity == 0` path).  `sqrtFn` stands for `np.sqrt` in the
Cholesky diagonal update `M[k, k] = np.sqrt(Lkk)`; it is a parameter of the
embedding because its value only feeds later Gram solves, never the
branching facts proved here. -/
structure OmpParams where
  numTemplates : ℕ
  numSamples : ℕ
  nbefore : ℕ
  numChannels : ℕ
  rank : ℕ
  spatial : ℕ → ℕ → ℕ → ℚ
  singular : ℕ → ℕ → ℚ
  temporal : ℕ → ℕ → ℕ → ℚ
  overlaps : ℕ → ℕ → ℕ → ℚ
  norms : ℕ → ℚ
  stopCrit : ℕ → ℚ
  minAmp : ℚ
  maxAmp : ℚ
  ignored : ℕ → Bool
  sqrtFn : ℚ → ℚ

/-- The low-rank convolutional scorer (lines 242–245): spatial projection
of the traces, scaling by the singular values, `valid`-mode convolution
with the (already time-reversed) temporal components along time, summed
over the rank axis. -/
def ompScore (pr : OmpParams) (traces : ℤ → ℕ → ℚ) (n p : ℕ) : ℚ :=
  ∑ r ∈ Finset.range pr.rank, ∑ j ∈ Finset.range pr.numSamples,
    pr.temporal r n j *
      (pr.singular r n *
        ∑ c ∈ Finset.range pr.numChannels,
          pr.spatial r n c * traces ((p + (pr.numSamples - 1) - j : ℕ) : ℤ) c)

/-- `scalar_products` right after line 248: the convolution scores with the
rows of `ignored_ids` set to `-np.inf` (`⊥`). -/
def ompInitS (pr : OmpParams) (traces : ℤ → ℕ → ℚ) : ℕ → ℕ → WithBot ℚ :=
  fun n p => if pr.ignored n then ⊥ else ((ompScore pr traces n p : ℚ) : WithBot ℚ)

/-- Loop state of `CircusOMPPeeler.main_function`: the residual scores, the
growing Cholesky factor `M`, the amplitude grid `final_amplitudes` and the
selection list `all_selections[:, :num_selection]`. -/
structure OmpState where
  S : ℕ → ℕ → WithBot ℚ
  M : ℕ → ℕ → ℚ
  finalAmps : ℕ → ℕ → ℚ
  selCluster : ℕ → ℕ
  selPeak : ℕ → ℕ
  k : ℕ

/-- `is_valid = scalar_products > stop_criteria`, flattened row-major. -/
def ompValidPairs (pr : OmpParams) (P : ℕ) (S : ℕ → ℕ → WithBot ℚ) : List (ℕ × ℕ) :=
  (List.range pr.numTemplates).flatMap fun n =>
    (List.range P).filterMap fun p =>
      if (pr.stopCrit n : WithBot ℚ) < S n p then some (n, p) else none

/-- `(best_cluster_ind, peak_index)` via `argmax` over the valid entries. -/
def ompPick (pr : OmpParams) (P : ℕ) (S : ℕ → ℕ → WithBot ℚ) : Option (ℕ × ℕ) :=
  pickBest (ompValidPairs pr P S) S

/-- The new Gram row (lines 275–287): entry `i` is
`overlaps[n*][selection[0, i], num_samples + delta_t[i]]` when
`delta_t[i] = selection[1, i] - peak_index` lies in
`(-num_samples, neighbor_window)`, and the untouched `0` of row
`num_selection` of `M` otherwise. -/
def ompGramRow (pr : OmpParams) (s : OmpState) (nst pst : ℕ) (i : ℕ) : ℚ :=
  let dt : ℤ := (s.selPeak i : ℤ) - (pst : ℤ)
  if dt < (pr.numSamples : ℤ) - 1 ∧ -(pr.numSamples : ℤ) < dt then
    pr.overlaps nst (s.selCluster i) ((pr.numSamples : ℤ) + dt).toNat
  else 0

/-- `Lkk = 1 - nrm2(M[num_selection, :num_selection]) ** 2` after the
forward substitution of the Gram row (lines 290–300). -/
def ompLkk (pr : OmpParams) (s : OmpState) (nst pst : ℕ) : ℚ :=
  1 - ∑ i ∈ Finset.range s.k, (forwardSolve s.M (ompGramRow pr s nst pst) i) ^ 2

/-- Lines 349–361: subtract
`diff_amp * cached_overlaps[tmp_best][:, tdx[0]:tdx[1]]` from
`scalar_products[:, idx[0]:idx[1]]`, where
`idx = [max(0, tmp_peak - num_samples), min(num_peaks, tmp_peak + neighbor_window)]`
and the overlap column aligned with score column `q` is
`num_samples + q - tmp_peak`. -/
def ompSubtract (pr : OmpParams) (P : ℕ) (S : ℕ → ℕ → WithBot ℚ) (ni pi : ℕ) (damp : ℚ) :
    ℕ → ℕ → WithBot ℚ :=
  fun n q =>
    if pi - pr.numSamples ≤ q ∧ q < min P (pi + pr.numSamples - 1) then
      WithBot.map (fun x => x - damp * pr.overlaps ni n (pr.numSamples + q - pi)) (S n q)
    else S n q

/-- Lines 324–361, after the Cholesky factor has been extended to `Mnew`:
append `(n*, p*)` to the selection, re-solve
`M Mᵀ a = full_sps[selection]` by `potrs` (forward then back substitution),
divide by the template norms, record the new amplitudes and subtract the
changed contributions (those with `|diff| > omp_tol`) from the scores.
Selected rows are never ignored ones (an ignored row stays `⊥` and is never
valid), so `unbot' 0` always reads the finite original score there. -/
def ompCommit (pr : OmpParams) (fullS : ℕ → ℕ → WithBot ℚ) (P : ℕ) (s : OmpState)
    (nst pst : ℕ) (Mnew : ℕ → ℕ → ℚ) : OmpState :=
  let k' := s.k + 1
  let selC := fun i => if i = s.k then nst else s.selCluster i
  let selP := fun i => if i = s.k then pst else s.selPeak i
  let res := fun i => (fullS (selC i) (selP i)).unbot' 0
  let amps := fun i => backSolve Mnew k' (forwardSolve Mnew res) i / pr.norms (selC i)
  let diff := fun i => amps i - s.finalAmps (selC i) (selP i)
  let fa := (List.range k').foldl
    (fun fa0 i => fun n p => if n = selC i ∧ p = selP i then amps i else fa0 n p) s.finalAmps
  let modList := (List.range k').filter fun i => decide (ompTol < |diff i|)
  let Snew := modList.foldl
    (fun S0 i => ompSubtract pr P S0 (selC i) (selP i) (diff i * pr.norms (selC i))) s.S
  { S := Snew, M := Mnew, finalAmps := fa, selCluster := selC, selPeak := selP, k := k' }

/-- One iteration of the OMP while-loop (vicinity = 0): `none` when the
loop exits — either no valid entry remains, or `num_selection > 0` and the
candidate Cholesky diagonal satisfies `Lkk ≤ omp_tol` (line 301's
`break`: the selected atoms are linearly dependent). -/
def ompNext (pr : OmpParams) (fullS : ℕ → ℕ → WithBot ℚ) (P : ℕ) (s : OmpState) :
    Option OmpState :=
  match ompPick pr P s.S with
  | none => none
  | some np =>
    if s.k = 0 then
      some (ompCommit pr fullS P s np.1 np.2 (fun i j => if i = 0 ∧ j = 0 then 1 else s.M i j))
    else if ompLkk pr s np.1 np.2 ≤ ompTol then none
    else
      some (ompCommit pr fullS P s np.1 np.2 (fun i j =>
        if i = s.k then
          if j < s.k then forwardSolve s.M (ompGramRow pr s np.1 np.2) j
          else if j = s.k then pr.sqrtFn (ompLkk pr s np.1 np.2)
          else s.M i j
        else s.M i j))

/-- The OMP while-loop, fuel-indexed. -/
def ompRun (pr : OmpParams) (fullS : ℕ → ℕ → WithBot ℚ) (P : ℕ) :
    ℕ → OmpState → OmpState
  | 0, s => s
  | fuel + 1, s =>
    match ompNext pr fullS P s with
    | none => s
    | some s2 => ompRun pr fullS P fuel s2

/-- Lines 365–372: the output filter.  Keep the entries of
`final_amplitudes` strictly inside `(min_amplitude, max_amplitude)`
(row-major over `np.where`), emitting
`(sample_index = p + nbefore, channel_index = 0, cluster_index = n, amplitude)`. -/
def ompEmitList (pr : OmpParams) (P : ℕ) (fa : ℕ → ℕ → ℚ) : List Spike :=
  (List.range pr.numTemplates).flatMap fun n =>
    (List.range P).filterMap fun p =>
      if pr.minAmp < fa n p ∧ fa n p < pr.maxAmp then
        some ⟨((p + pr.nbefore : ℕ) : ℤ), 0, n, fa n p⟩
      else none

/-- Lines 365–378: the output filter followed by the sort by
`sample_index`. -/
def ompFinish (pr : OmpParams) (P : ℕ) (fa : ℕ → ℕ → ℚ) : List Spike :=
  sortSpikes (ompEmitList pr P fa)

/-- The loop state entering the while-loop: `M` zero-initialized,
`final_amplitudes = 0`, empty selection. -/
def ompInitState (pr : OmpParams) (traces : ℤ → ℕ → ℚ) : OmpState :=
  { S := ompInitS pr traces, M := fun _ _ => 0, finalAmps := fun _ _ => 0,
    selCluster := fun _ => 0, selPeak := fun _ => 0, k := 0 }

/-- `CircusOMPPeeler.main_function` (vicinity = 0): score, run the OMP
loop (`full_sps` is the copy of the initial scores), filter the amplitudes
and sort.  `fuel` bounds the number of loop iterations of the model. -/
def ompMain (pr : OmpParams) (traces : ℤ → ℕ → ℚ) (Tlen fuel : ℕ) : List Spike :=
  let P := Tlen - pr.numSamples + 1
  let s0 := ompInitState pr traces
  ompFinish pr P (ompRun pr s0.S P fuel s0).finalAmps

/-- The entries of `d` that `CircusPeeler.main_function` reads.
`templatesN` are the normalized dense templates (the `templates` matrix of
`_prepare_templates`, rows reshaped back to `L × C`; the sparse-matrix
branch computes the same products), `ampLo`/`ampHi` are the two columns of
`d["amplitudes"]`. -/
structure GreedyParams where
  numTemplates : ℕ
  numSamples : ℕ
  nbefore : ℕ
  numChannels : ℕ
  templatesN : ℕ → ℕ → ℕ → ℚ
  norms : ℕ → ℚ
  overlaps : ℕ → ℕ → ℕ → ℚ
  ampLo : ℕ → ℚ
  ampHi : ℕ → ℚ
  jitter : ℕ
  margin : ℕ

/-- `min_sps = (amplitudes[:, 0] * norms)[:, np.newaxis]`. -/
def greedyMinSps (gp : GreedyParams) (n : ℕ) : ℚ := gp.ampLo n * gp.norms n

/-- `max_sps = (amplitudes[:, 1] * norms)[:, np.newaxis]`. -/
def greedyMaxSps (gp : GreedyParams) (n : ℕ) : ℚ := gp.ampHi n * gp.norms n

/-- Modelled from the spec: `DetectPeakByChannel.detect_peaks`, the
external peak-detection primitive (§6: "peak detection primitive
(consumed as an external function)"), detects samples whose amplitude
strictly exceeds the per-channel threshold `abs_thresholds`
(`noise_levels * detect_threshold`, "threshold in noise multiples"),
reporting the detecting channel.  The `exclude_sweep_ms` lockout, which
only removes peaks, is not modelled; on an all-zero trace with nonnegative
thresholds no sample exceeds the threshold, so no peak is returned. -/
def specDetect (thr : ℕ → ℚ) (C : ℕ) (tr : ℤ → ℕ → ℚ) (len : ℕ) : List (ℤ × ℕ) :=
  (List.range len).filterMap fun (t : ℕ) =>
    ((List.range C).find? fun c => decide (thr c < |tr (t : ℤ) c|)).map fun c => ((t : ℤ), c)

/-- `scalar_products = templates.dot(snippets.T)` (lines 657–667): the dot
product of normalized template `n` with the `L × C` snippet at peak `p`
(window `[times p - nbefore, times p - nbefore + L)` of the untrimmed
traces; the `sym_patch` branch extracts the same window when
`nbefore = nafter`). -/
def greedyScore (gp : GreedyParams) (traces : ℤ → ℕ → ℚ) (times : ℕ → ℤ) (n p : ℕ) : ℚ :=
  ∑ t ∈ Finset.range gp.numSamples, ∑ c ∈ Finset.range gp.numChannels,
    gp.templatesN n t c * traces (times p - (gp.nbefore : ℤ) + (t : ℤ)) c

/-- `CircusPeeler.main_function`: trim the margin, detect peaks (external
detector `det`), jitter-expand and deduplicate, score the snippets, run
the greedy loop (fuel `N · P` reaches the fixpoint by
`greedy_loop_terminates`), divide the amplitudes by the norms and sort by
`sample_index`. -/
def greedyMain (gp : GreedyParams) (det : (ℤ → ℕ → ℚ) → ℕ → List (ℤ × ℕ))
    (traces : ℤ → ℕ → ℚ) (Tlen : ℕ) : List Spike :=
  let half : ℕ := gp.margin / 2
  let trimmed : ℤ → ℕ → ℚ := fun t c => traces (t + (half : ℤ)) c
  let rawPeaks := det trimmed (Tlen - gp.margin)
  let peaks :=
    if 0 < gp.jitter then codeJitter gp.jitter ((Tlen - gp.margin : ℕ) : ℤ) rawPeaks
    else dedupSortFirst rawPeaks
  let P := peaks.length
  let times : ℕ → ℤ := fun p => (peaks.getD p (0, 0)).1 + (half : ℤ)
  let chans : ℕ → ℕ := fun p => (peaks.getD p (0, 0)).2
  let s0 : GreedyState :=
    { S := fun n p => ((greedyScore gp traces times n p : ℚ) : WithBot ℚ), spikes := [] }
  let sf := greedyIter gp.numTemplates P gp.numSamples (greedyMinSps gp) (greedyMaxSps gp)
    gp.overlaps times chans (gp.numTemplates * P) s0
  sortSpikes (sf.spikes.map fun sp => { sp with amplitude := sp.amplitude / gp.norms sp.cluster })

/-- The all-zero input trace. -/
def zeroTraces : ℤ → ℕ → ℚ := fun _ _ => 0

/-- A concrete OMP parameter record built on the template bank `Tc`
(`N = 1`, `L = 2`, `C = 1`), with amplitude band `(0, 2)`. -/
def prC : OmpParams :=
  { numTemplates := 1, numSamples := 2, nbefore := 1, numChannels := 1, rank := 1,
    spatial := fun _ _ _ => 1, singular := fun _ _ => 1, temporal := fun _ _ _ => 1,
    overlaps := compute_overlaps 2 1 Tc, norms := fun _ => 1, stopCrit := fun _ => 1,
    minAmp := 0, maxAmp := 2, ignored := fun _ => false, sqrtFn := fun _ => 0 }

/-- `prC` with the amplitude band `(-1, 1)`, which strictly contains `0`. -/
def prBad : OmpParams :=
  { prC with minAmp := -1, maxAmp := 1 }

/-- `prC` with the amplitude band `(1/2, 2)`. -/
def prHalf : OmpParams :=
  { prC with minAmp := 1/2, maxAmp := 2 }

/-- A concrete final-amplitude grid with constant value `1/2`. -/
def faHalf : ℕ → ℕ → ℚ := fun _ _ => 1/2

/-- A concrete greedy parameter record built on `Tc`. -/
def gpC : GreedyParams :=
  { numTemplates := 1, numSamples := 2, nbefore := 1, numChannels := 1,
    templatesN := Tc, norms := fun _ => 1, overlaps := compute_overlaps 2 1 Tc,
    ampLo := fun _ => 1/2, ampHi := fun _ => 2, jitter := 1, margin := 4 }

/-- A concrete nonnegative per-channel threshold vector. -/
def thrC : ℕ → ℚ := fun _ => 1

/-- A concrete OMP loop state with one previous selection of `(0, 0)` and
the entry `(0, 0)` still valid: reselecting it makes the Gram row equal
the zero-lag self-overlap `1`, so the candidate Cholesky diagonal is
`Lkk = 1 - 1 = 0 ≤ omp_tol`. -/
def sDep : OmpState :=
  { S := fun n p => if n = 0 ∧ p = 0 then ((5 : ℚ) : WithBot ℚ) else ⊥,
    M := fun i j => if i = 0 ∧ j = 0 then 1 else 0,
    finalAmps := fun n p => if n = 0 ∧ p = 0 then 6/5 else 0,
    selCluster := fun _ => 0, selPeak := fun _ => 0, k := 1 }

end Circus

namespace Circus

/-- `lagProducts` at full delay `L` (the zero-lag column) is a symmetric
bilinear value: swapping the two template indices does not change it. -/
theorem lagProducts_full_symm (L C : ℕ) (T : ℕ → ℕ → ℕ → ℚ) (i m : ℕ) :
    lagProducts L C T L i m = lagProducts L C T L m i := by
  unfold lagProducts
  refine Finset.sum_congr rfl fun t _ => Finset.sum_congr rfl fun c _ => ?_
  rw [Nat.sub_self, Nat.zero_add, mul_comm]

/-- C1 counterexample: with `omp_min_sps = 1`, a zero-norm template, one
channel of noise level `4` and `L = 4` samples, the code computes
`√(4·4) = 4` while the claimed squared-noise formula gives `√(16·4) = 8`. -/
theorem stop_criteria_squared_cex :
    stop_criteria 1 (fun _ => 0) (fun _ => 4) 1 4 0 ≠
      stop_criteria_claimed 1 (fun _ => 0) (fun _ => 4) 1 4 0 := by
  unfold stop_criteria stop_criteria_claimed
  rw [Finset.sum_range_one, Finset.sum_range_one]
  have h1 : Real.sqrt ((4 : ℝ) * (4 : ℕ)) = 4 := by
    rw [show ((4 : ℝ) * (4 : ℕ)) = 4 ^ 2 by norm_num]
    exact Real.sqrt_sq (by norm_num)
  have h2 : Real.sqrt ((4 : ℝ) ^ 2 * (4 : ℕ)) = 8 := by
    rw [show ((4 : ℝ) ^ 2 * (4 : ℕ)) = 8 ^ 2 by norm_num]
    exact Real.sqrt_sq (by norm_num)
  rw [h1, h2]
  norm_num

/-- C1 (amended): the stopping threshold computed at initialization equals
`omp_min_sps · max(‖W_n‖, √((Σ_c noise_c) · L))` — the per-channel noise
levels are summed, not squared, under the square root. -/
theorem stop_criteria_eq_summed (omp_min_sps : ℝ) (norms : ℕ → ℝ) (noise_levels : ℕ → ℝ)
    (C L : ℕ) (n : ℕ) :
    stop_criteria omp_min_sps norms noise_levels C L n =
      stop_criteria_summed omp_min_sps norms noise_levels C L n := by
  unfold stop_criteria stop_criteria_summed
  rw [mul_comm (∑ c ∈ Finset.range C, noise_levels c) (L : ℝ)]

unseal Rat.add Rat.mul Rat.inv Rat.sub in
/-- C2 counterexample: for the unit-norm template `(3/5, 4/5)` (`L = 2`,
`C = 1`), the overlap entry at the claimed zero-lag column `L − 1` is
`12/25`, not `1` within `10⁻⁶`. -/
theorem overlap_self_peak_cex :
    (∑ t ∈ Finset.range 2, ∑ c ∈ Finset.range 1, (Tc 0 t c) ^ 2 = 1) ∧
      ¬ |compute_overlaps 2 1 Tc 0 0 (2 - 1) - 1| ≤ 1 / 1000000 := by decide

/-- C2 (amended): for every normalized template `n` (unit sum of squared
entries, which is what dividing by a positive norm `‖W_n‖` produces), the
overlap matrix built by `compute_overlaps` has its zero-lag self-term at
column index `L`, where it equals `1` exactly. -/
theorem overlap_self_peak (L C : ℕ) (T : ℕ → ℕ → ℕ → ℚ) (n : ℕ)
    (hnorm : ∑ t ∈ Finset.range L, ∑ c ∈ Finset.range C, (T n t c) ^ 2 = 1) :
    compute_overlaps L C T n n L = 1 := by
  rw [compute_overlaps, if_pos le_rfl]
  refine Eq.trans ?_ hnorm
  unfold lagProducts
  refine Finset.sum_congr rfl fun t ht => Finset.sum_congr rfl fun c _ => ?_
  simp only [padT, Nat.sub_self, Nat.zero_add, if_pos (Finset.mem_range.mp ht), pow_two]

unseal Rat.add Rat.mul Rat.inv Rat.sub in
theorem overlap_self_peak_witness :
    (∑ t ∈ Finset.range 2, ∑ c ∈ Finset.range 1, (Tc 0 t c) ^ 2 = 1) ∧
      compute_overlaps 2 1 Tc 0 0 2 = 1 :=
  ⟨by decide, overlap_self_peak 2 1 Tc 0 (by decide)⟩

unseal Rat.add Rat.mul Rat.inv Rat.sub in
/-- C3 counterexample: for the template `(3/5, 4/5)` (`L = 2`), at
`n = m = 0`, `δ = 0`, the claimed mirror entry sits at `2L − 2 − δ = 2`;
the two entries are `0` and `1`, which differ by more than `10⁻⁵`. -/
theorem overlap_symmetry_cex :
    ¬ |compute_overlaps 2 1 Tc 0 0 0 -
        compute_overlaps 2 1 Tc 0 0 (2 * 2 - 2 - 0)| ≤ 1 / 100000 := by decide

/-- C3 (amended): the symmetry law of the overlap matrices built by
`compute_overlaps` is `O_n[m, δ] = O_m[n, 2L − δ]` (exactly, hence within
any tolerance), valid for every lag column `δ` with `2 ≤ δ ≤ 2L − 2` so
that the mirrored index is also a stored column.  (Column `0` is the empty
product and column `1` has no stored mirror: its partner `2L − 1` lies
outside the `2L − 1` stored columns.) -/
theorem overlap_symmetry (L C : ℕ) (T : ℕ → ℕ → ℕ → ℚ) (n m δ : ℕ)
    (h2 : 2 ≤ δ) (hup : δ ≤ 2 * L - 2) :
    compute_overlaps L C T n m δ = compute_overlaps L C T m n (2 * L - δ) := by
  rcases le_or_lt δ L with hjL | hjL
  · rcases eq_or_lt_of_le hjL with rfl | hlt
    · unfold compute_overlaps
      rw [show 2 * δ - δ = δ by omega, if_pos le_rfl, if_pos le_rfl]
      exact lagProducts_full_symm δ C T n m
    · unfold compute_overlaps
      rw [if_pos hjL, if_neg (by omega : ¬ 2 * L - δ ≤ L),
        show 2 * L - (2 * L - δ) = δ by omega]
  · unfold compute_overlaps
    rw [if_neg (by omega : ¬ δ ≤ L), if_pos (by omega : 2 * L - δ ≤ L)]

unseal Rat.add Rat.mul Rat.inv Rat.sub in
theorem overlap_symmetry_witness :
    2 ≤ 4 ∧ 4 ≤ 2 * 3 - 2 ∧
      compute_overlaps 3 1 Tc 0 0 4 = compute_overlaps 3 1 Tc 0 0 (2 * 3 - 4) :=
  ⟨by decide, by decide, overlap_symmetry 3 1 Tc 0 0 4 (by decide) (by decide)⟩

/-- `np.searchsorted` characterization: on an array that is strictly
increasing on its first `P` entries, index `i < P` lies strictly below the
left insertion point of `v` exactly when its value is below `v`. -/
theorem lt_countLt_iff (P : ℕ) (f : ℕ → ℤ) (v : ℤ)
    (hmono : ∀ i j, i < j → j < P → f i < f j) (i : ℕ) (hi : i < P) :
    i < countLt P f v ↔ f i < v := by
  unfold countLt
  constructor
  · intro h
    by_contra hfv
    push_neg at hfv
    have hsub : (Finset.range P).filter (fun j => f j < v) ⊆ Finset.range i := by
      intro j hj
      rcases Finset.mem_filter.mp hj with ⟨hjP, hjv⟩
      rw [Finset.mem_range] at hjP ⊢
      by_contra hji
      push_neg at hji
      rcases eq_or_lt_of_le hji with rfl | hij
      · exact absurd hjv (not_lt.mpr hfv)
      · exact absurd hjv (not_lt.mpr (le_trans hfv (le_of_lt (hmono i j hij hjP))))
    have hc := Finset.card_le_card hsub
    rw [Finset.card_range] at hc
    omega
  · intro h
    have hsub : Finset.range (i + 1) ⊆ (Finset.range P).filter (fun j => f j < v) := by
      intro j hj
      rw [Finset.mem_range] at hj
      refine Finset.mem_filter.mpr ⟨Finset.mem_range.mpr (by omega), ?_⟩
      rcases eq_or_lt_of_le (Nat.le_of_lt_succ hj) with rfl | hji
      · exact h
      · exact lt_trans (hmono j i hji hi) h
    have hc := Finset.card_le_card hsub
    rw [Finset.card_range] at hc
    omega

/-- C5: in every greedy loop iteration, writing `A = S[n*, p*]` and
`Δ_q = peak_sample_index[q] − peak_sample_index[p*]`, the updated score
tensor subtracts `A · O_{n*}[n, L − 1 + Δ_q]` exactly at the peaks `q`
whose sample distance `Δ_q` lies in `(−L, L)`, sets row `n*` to `−∞` at
those peaks, and leaves every other entry unchanged. -/
theorem greedy_residual_update (P L : ℕ) (overlaps : ℕ → ℕ → ℕ → ℚ) (times : ℕ → ℤ)
    (S : ℕ → ℕ → WithBot ℚ) (nst pst : ℕ) (A : ℚ)
    (hmono : ∀ i j, i < j → j < P → times i < times j)
    (hA : S nst pst = (A : WithBot ℚ)) (n q : ℕ) (hq : q < P) :
    greedyStepS P L overlaps times S nst pst n q =
      if -(L : ℤ) < times q - times pst ∧ times q - times pst < L then
        if n = nst then ⊥
        else
          WithBot.map
            (fun x => x - A * overlaps nst n ((L : ℤ) - 1 + (times q - times pst)).toNat)
            (S n q)
      else S n q := by
  have hmono' : ∀ i j, i < j → j < P → times i - times pst < times j - times pst :=
    fun i j h1 h2 => sub_lt_sub_right (hmono i j h1 h2) _
  have hlo : q < countLt P (fun i => times i - times pst) (-((L : ℤ) - 1)) ↔
      times q - times pst < -((L : ℤ) - 1) :=
    lt_countLt_iff P (fun i => times i - times pst) (-((L : ℤ) - 1)) hmono' q hq
  have hhi : q < countLt P (fun i => times i - times pst) (L : ℤ) ↔
      times q - times pst < (L : ℤ) :=
    lt_countLt_iff P (fun i => times i - times pst) (L : ℤ) hmono' q hq
  simp only [greedyStepS, hA, WithBot.unbot'_coe]
  by_cases hc : -(L : ℤ) < times q - times pst ∧ times q - times pst < L
  · have h1 : countLt P (fun i => times i - times pst) (-((L : ℤ) - 1)) ≤ q := by
      by_contra h1
      push_neg at h1
      have := hlo.mp h1
      omega
    have h2 : q < countLt P (fun i => times i - times pst) (L : ℤ) := hhi.mpr hc.2
    rw [if_pos ⟨h1, h2⟩, if_pos hc]
    by_cases hn : n = nst
    · rw [if_pos hn, if_pos hn]
    · rw [if_neg hn, if_neg hn]
      rw [show times q - times pst + ((L : ℤ) - 1) = (L : ℤ) - 1 + (times q - times pst) from
        add_comm _ _]
      congr 1
      funext x
      ring
  · rw [if_neg ?_, if_neg hc]
    rintro ⟨ha, hb⟩
    exact hc ⟨by have := hlo.not.mp (by omega); omega, hhi.mp hb⟩

theorem greedy_residual_update_witness :
    (∀ i j : ℕ, i < j → j < 2 → timesId i < timesId j) ∧ Sc 0 0 = ((2 : ℚ) : WithBot ℚ) ∧
      1 < 2 ∧
      greedyStepS 2 2 (compute_overlaps 2 1 Tc) timesId Sc 0 0 0 1 =
        if -((2 : ℕ) : ℤ) < timesId 1 - timesId 0 ∧ timesId 1 - timesId 0 < ((2 : ℕ) : ℤ) then
          if 0 = 0 then ⊥
          else
            WithBot.map
              (fun x =>
                x - 2 * compute_overlaps 2 1 Tc 0 0
                  ((((2 : ℕ) : ℤ)) - 1 + (timesId 1 - timesId 0)).toNat)
              (Sc 0 1)
        else Sc 0 1 :=
  ⟨fun i j h1 _ => Int.ofNat_lt.mpr h1, rfl, by decide,
    greedy_residual_update 2 2 (compute_overlaps 2 1 Tc) timesId Sc 0 0 2
      (fun i j h1 _ => Int.ofNat_lt.mpr h1) rfl 0 1 (by decide)⟩

/-- A pair delivered by `greedyValidPairs` lies in the `N × P` grid and its
entry is strictly between the per-template bounds (hence finite). -/
theorem greedyValidPairs_mem {N P : ℕ} {minSps maxSps : ℕ → ℚ} {S : ℕ → ℕ → WithBot ℚ}
    {np : ℕ × ℕ} (h : np ∈ greedyValidPairs N P minSps maxSps S) :
    np.1 < N ∧ np.2 < P ∧ (minSps np.1 : WithBot ℚ) < S np.1 np.2 ∧
      S np.1 np.2 < (maxSps np.1 : WithBot ℚ) := by
  rcases List.mem_flatMap.mp h with ⟨n, hn, hmem⟩
  rcases List.mem_filterMap.mp hmem with ⟨p, hp, hite⟩
  rw [List.mem_range] at hn hp
  by_cases hcond : (minSps n : WithBot ℚ) < S n p ∧ S n p < (maxSps n : WithBot ℚ)
  · rw [if_pos hcond] at hite
    cases Option.some.inj hite
    exact ⟨hn, hp, hcond.1, hcond.2⟩
  · rw [if_neg hcond] at hite
    exact absurd hite (by simp)

/-- Any pair selected by `greedyPick` is valid in the current state. -/
theorem greedyPick_some {N P : ℕ} {minSps maxSps : ℕ → ℚ} {s : GreedyState} {np : ℕ × ℕ}
    (h : greedyPick N P minSps maxSps s = some np) :
    np.1 < N ∧ np.2 < P ∧ (minSps np.1 : WithBot ℚ) < s.S np.1 np.2 ∧
      s.S np.1 np.2 < (maxSps np.1 : WithBot ℚ) :=
  greedyValidPairs_mem (List.mem_of_find?_eq_some h)

/-- The greedy score update never revives a `−∞` entry: entries already `⊥`
stay `⊥` (the update map sends `⊥` to `⊥` and the window write to row `n*`
only writes `⊥`). -/
theorem greedyStepS_bot_mono {P L : ℕ} {overlaps : ℕ → ℕ → ℕ → ℚ} {times : ℕ → ℤ}
    {S : ℕ → ℕ → WithBot ℚ} {nst pst n q : ℕ} (h : S n q = ⊥) :
    greedyStepS P L overlaps times S nst pst n q = ⊥ := by
  simp only [greedyStepS]
  split
  · split
    · rfl
    · rw [h]; rfl
  · exact h

/-- The greedy score update sets the selected entry itself to `−∞`: the
selected peak lies inside its own neighbor window (its distance is `0`). -/
theorem greedyStepS_sel_bot {P L : ℕ} {overlaps : ℕ → ℕ → ℕ → ℚ} {times : ℕ → ℤ}
    {S : ℕ → ℕ → WithBot ℚ} {nst pst : ℕ}
    (hmono : ∀ i j, i < j → j < P → times i < times j) (hpst : pst < P) (hL : 1 ≤ L) :
    greedyStepS P L overlaps times S nst pst nst pst = ⊥ := by
  have hmono' : ∀ i j, i < j → j < P → times i - times pst < times j - times pst :=
    fun i j h1 h2 => sub_lt_sub_right (hmono i j h1 h2) _
  have hlo : pst < countLt P (fun i => times i - times pst) (-((L : ℤ) - 1)) ↔
      times pst - times pst < -((L : ℤ) - 1) :=
    lt_countLt_iff P (fun i => times i - times pst) (-((L : ℤ) - 1)) hmono' pst hpst
  have hhi : pst < countLt P (fun i => times i - times pst) (L : ℤ) ↔
      times pst - times pst < (L : ℤ) :=
    lt_countLt_iff P (fun i => times i - times pst) (L : ℤ) hmono' pst hpst
  have e : times pst - times pst = 0 := sub_self _
  rw [e] at hlo hhi
  have hcond : countLt P (fun i => times i - times pst) (-((L : ℤ) - 1)) ≤ pst ∧
      pst < countLt P (fun i => times i - times pst) (L : ℤ) := by
    constructor
    · by_contra hx
      push_neg at hx
      have := hlo.mp hx
      omega
    · exact hhi.mpr (by omega)
  simp only [greedyStepS]
  rw [if_pos hcond, if_pos trivial]

/-- Each consumed unit of fuel in the greedy loop either reaches the
no-valid-entry fixpoint or permanently adds at least one new `−∞` entry to
the `N × P` score grid. -/
theorem greedy_bot_growth (N P L : ℕ) (minSps maxSps : ℕ → ℚ) (overlaps : ℕ → ℕ → ℕ → ℚ)
    (times : ℕ → ℤ) (chans : ℕ → ℕ)
    (hmono : ∀ i j, i < j → j < P → times i < times j) (hL : 1 ≤ L) :
    ∀ fuel s,
      greedyPick N P minSps maxSps
          (greedyIter N P L minSps maxSps overlaps times chans fuel s) = none ∨
        (botPairs N P s.S).card + fuel ≤
          (botPairs N P (greedyIter N P L minSps maxSps overlaps times chans fuel s).S).card := by
  intro fuel
  induction fuel with
  | zero => intro s; right; rw [greedyIter]; omega
  | succ fuel ih =>
    intro s
    rw [greedyIter]
    rcases hpk : greedyPick N P minSps maxSps s with _ | np
    · left
      exact hpk
    · simp only []
      have hv := greedyPick_some hpk
      have hstep : (botPairs N P s.S).card + 1 ≤
          (botPairs N P (greedyStepAt P L overlaps times chans s np.1 np.2).S).card := by
        have hsub : botPairs N P s.S ⊆
            botPairs N P (greedyStepAt P L overlaps times chans s np.1 np.2).S := by
          intro x hx
          rcases Finset.mem_filter.mp hx with ⟨hgrid, hbot⟩
          exact Finset.mem_filter.mpr ⟨hgrid, greedyStepS_bot_mono hbot⟩
        have hnot : np ∉ botPairs N P s.S := by
          intro hx
          rcases Finset.mem_filter.mp hx with ⟨_, hbot⟩
          exact absurd (hbot ▸ hv.2.2.1) not_lt_bot
        have hin : np ∈ botPairs N P (greedyStepAt P L overlaps times chans s np.1 np.2).S := by
          refine Finset.mem_filter.mpr ⟨?_, ?_⟩
          · exact Finset.mem_product.mpr
              ⟨Finset.mem_range.mpr hv.1, Finset.mem_range.mpr hv.2.1⟩
          · exact greedyStepS_sel_bot hmono hv.2.1 hL
        have := Finset.card_lt_card ((Finset.ssubset_iff_of_subset hsub).mpr ⟨np, hin, hnot⟩)
        omega
      rcases ih (greedyStepAt P L overlaps times chans s np.1 np.2) with h | h
      · left; exact h
      · right; omega

/-- C10: the greedy selection loop terminates for every input: each
iteration permanently sets the selected (hence finite) entry to `−∞`, `−∞`
entries never become valid again, so after at most `N · P` iterations no
valid entry remains and the `while np.any(is_valid)` loop exits. -/
theorem greedy_loop_terminates (N P L : ℕ) (minSps maxSps : ℕ → ℚ)
    (overlaps : ℕ → ℕ → ℕ → ℚ) (times : ℕ → ℤ) (chans : ℕ → ℕ) (s : GreedyState)
    (hmono : ∀ i j, i < j → j < P → times i < times j) (hL : 1 ≤ L) :
    greedyPick N P minSps maxSps
      (greedyIter N P L minSps maxSps overlaps times chans (N * P) s) = none := by
  rcases greedy_bot_growth N P L minSps maxSps overlaps times chans hmono hL (N * P) s with h | h
  · exact h
  · by_contra hne
    rcases Option.ne_none_iff_exists'.mp hne with ⟨np, hnp⟩
    have hv := greedyPick_some hnp
    have hsub : botPairs N P
        (greedyIter N P L minSps maxSps overlaps times chans (N * P) s).S ⊆
        Finset.range N ×ˢ Finset.range P := Finset.filter_subset _ _
    have hinGrid : np ∈ Finset.range N ×ˢ Finset.range P :=
      Finset.mem_product.mpr ⟨Finset.mem_range.mpr hv.1, Finset.mem_range.mpr hv.2.1⟩
    have hnotBot : np ∉ botPairs N P
        (greedyIter N P L minSps maxSps overlaps times chans (N * P) s).S := by
      intro hx
      rcases Finset.mem_filter.mp hx with ⟨_, hbot⟩
      exact absurd (hbot ▸ hv.2.2.1) not_lt_bot
    have hcard := Finset.card_lt_card
      ((Finset.ssubset_iff_of_subset hsub).mpr ⟨np, hinGrid, hnotBot⟩)
    rw [Finset.card_product, Finset.card_range, Finset.card_range] at hcard
    omega

theorem greedy_loop_terminates_witness :
    (∀ i j : ℕ, i < j → j < 1 → timesId i < timesId j) ∧ 1 ≤ 1 ∧
      greedyPick 1 1 (fun _ => 0) (fun _ => 3)
        (greedyIter 1 1 1 (fun _ => 0) (fun _ => 3) (compute_overlaps 2 1 Tc) timesId
          (fun _ => 0) (1 * 1) ⟨Sc, []⟩) = none :=
  ⟨fun _ j h1 h2 => absurd h1 (by omega), le_refl 1,
    greedy_loop_terminates 1 1 1 (fun _ => 0) (fun _ => 3) (compute_overlaps 2 1 Tc) timesId
      (fun _ => 0) ⟨Sc, []⟩ (fun _ j h1 h2 => absurd h1 (by omega)) (le_refl 1)⟩

/-- Membership in the raw jitter expansion: `(t, c)` occurs exactly when
some peak `pc` expands by an offset `j ∈ [−J, J)` to time `t`, with
`0 < t < len` and `c` the channel of `pc`. -/
theorem mem_jitterExpand {J : ℕ} {len : ℤ} {peaks : List (ℤ × ℕ)} {t : ℤ} {c : ℕ} :
    (t, c) ∈ jitterExpand J len peaks ↔
      ∃ pc ∈ peaks, (∃ j : ℤ, -(J : ℤ) ≤ j ∧ j < J ∧ t = pc.1 + j) ∧
        0 < t ∧ t < len ∧ c = pc.2 := by
  unfold jitterExpand
  rw [List.mem_flatMap]
  constructor
  · rintro ⟨pc, hpc, hmem⟩
    rcases List.mem_filterMap.mp hmem with ⟨jn, hjn, hite⟩
    rw [List.mem_range] at hjn
    by_cases hcond : 0 < pc.1 + (jn : ℤ) - (J : ℤ) ∧ pc.1 + (jn : ℤ) - (J : ℤ) < len
    · rw [if_pos hcond, Option.some.injEq, Prod.mk.injEq] at hite
      obtain ⟨h1, h2⟩ := hite
      exact ⟨pc, hpc, ⟨(jn : ℤ) - (J : ℤ), by omega, by omega, by omega⟩,
        by omega, by omega, h2.symm⟩
    · rw [if_neg hcond] at hite
      exact absurd hite (by simp)
  · rintro ⟨pc, hpc, ⟨j, hj1, hj2, hjt⟩, hpos, hlen, hc⟩
    refine ⟨pc, hpc, List.mem_filterMap.mpr ⟨(j + J).toNat, ?_, ?_⟩⟩
    · rw [List.mem_range]; omega
    · have e : pc.1 + (((j + J).toNat : ℕ) : ℤ) - (J : ℤ) = t := by omega
      rw [e, if_pos ⟨hpos, hlen⟩, hc]

/-- Membership after `np.unique` deduplication: a pair survives exactly
when its time occurs in the input and its channel is that of the first
occurrence of the time. -/
theorem mem_dedupSortFirst {l : List (ℤ × ℕ)} {t : ℤ} {c : ℕ} :
    (t, c) ∈ dedupSortFirst l ↔ (∃ pc ∈ l, pc.1 = t) ∧ c = firstChanAt l t := by
  unfold dedupSortFirst
  rw [List.mem_map]
  constructor
  · rintro ⟨t', ht', heq⟩
    rw [Prod.mk.injEq] at heq
    obtain ⟨rfl, rfl⟩ := heq
    have hmem := (List.perm_insertionSort (α := ℤ) (· ≤ ·) _).mem_iff.mp ht'
    rw [List.mem_dedup, List.mem_map] at hmem
    exact ⟨hmem, rfl⟩
  · rintro ⟨⟨pc, hpc, hfst⟩, rfl⟩
    refine ⟨t, ?_, rfl⟩
    apply (List.perm_insertionSort (α := ℤ) (· ≤ ·) _).mem_iff.mpr
    rw [List.mem_dedup, List.mem_map]
    exact ⟨pc, hpc, hfst⟩

unseal Rat.add Rat.mul Rat.inv Rat.sub in
/-- C9 counterexample: for a peak at time `1` with jitter `J = 1` on a
trimmed trace of length `3`, the jittered time `0` is a valid index of the
trace, yet the code discards it (`jittered_peaks > 0` is strict), so the
claimed expansion (time `0` kept) disagrees with the code's. -/
theorem jitter_zero_discarded_cex :
    ((0 : ℤ), 0) ∈ claimJitter 1 3 [((1 : ℤ), 0)] ∧
      ((0 : ℤ), 0) ∉ codeJitter 1 3 [((1 : ℤ), 0)] := by decide

/-- C9 (amended): with jitter `J`, each detected peak at time `t₀` is
replaced by the times `t₀ + j`, `j ∈ {−J, …, J−1}`, that satisfy
`0 < t < len` — strictly positive, so the valid index `0` of the trimmed
trace is also discarded — and the expanded peaks are deduplicated by sample
index, keeping the channel of the first occurrence in expansion order. -/
theorem jitter_expansion_spec (J : ℕ) (len : ℤ) (peaks : List (ℤ × ℕ)) (t : ℤ) (c : ℕ) :
    (t, c) ∈ codeJitter J len peaks ↔
      ((∃ pc ∈ peaks, ∃ j : ℤ, -(J : ℤ) ≤ j ∧ j < J ∧ t = pc.1 + j) ∧ 0 < t ∧ t < len) ∧
        c = firstChanAt (jitterExpand J len peaks) t := by
  unfold codeJitter
  rw [mem_dedupSortFirst]
  constructor
  · rintro ⟨⟨⟨t', c'⟩, hpc, hfst⟩, rfl⟩
    cases hfst
    rcases mem_jitterExpand.mp hpc with ⟨qc, hqc, hj, hpos, hlen, _⟩
    exact ⟨⟨⟨qc, hqc, hj⟩, hpos, hlen⟩, rfl⟩
  · rintro ⟨⟨⟨qc, hqc, j, hj1, hj2, hjt⟩, hpos, hlen⟩, rfl⟩
    exact ⟨⟨(t, qc.2),
      mem_jitterExpand.mpr ⟨qc, hqc, ⟨j, hj1, hj2, hjt⟩, hpos, hlen, rfl⟩, rfl⟩, rfl⟩

/-- C4: if during an OMP iteration with at least one previous selection the
candidate Cholesky diagonal satisfies `1 − ‖x‖² ≤ ε` (float32 machine
epsilon) at the selected pair, the solver leaves the while-loop via the
`break` — no exception is raised — and the function still returns
normally: the amplitude-band filter and the sort by `sample_index` are
applied to the amplitudes accumulated up to that point. -/
theorem omp_dependence_break (pr : OmpParams) (fullS : ℕ → ℕ → WithBot ℚ) (P : ℕ)
    (s : OmpState) (np : ℕ × ℕ) (fuel : ℕ)
    (hpick : ompPick pr P s.S = some np) (hk : 0 < s.k)
    (hdep : ompLkk pr s np.1 np.2 ≤ ompTol) :
    ompRun pr fullS P fuel s = s ∧
      ompFinish pr P (ompRun pr fullS P fuel s).finalAmps =
        sortSpikes (ompEmitList pr P s.finalAmps) := by
  have hnext : ompNext pr fullS P s = none := by
    unfold ompNext
    simp only [hpick]
    rw [if_neg (by omega : ¬ s.k = 0), if_pos hdep]
  have hrun : ompRun pr fullS P fuel s = s := by
    cases fuel with
    | zero => rw [ompRun]
    | succ fuel => rw [ompRun, hnext]
  exact ⟨hrun, by rw [hrun]; rfl⟩

unseal Rat.add Rat.mul Rat.inv Rat.sub in
theorem omp_dependence_break_witness :
    ompPick prC 2 sDep.S = some (0, 0) ∧ 0 < sDep.k ∧ ompLkk prC sDep 0 0 ≤ ompTol ∧
      (ompRun prC sDep.S 2 7 sDep = sDep ∧
        ompFinish prC 2 (ompRun prC sDep.S 2 7 sDep).finalAmps =
          sortSpikes (ompEmitList prC 2 sDep.finalAmps)) := by
  have hg : ompGramRow prC sDep 0 0 0 = 1 := by decide
  have hfs : forwardSolve sDep.M (ompGramRow prC sDep 0 0) 0 = 1 := by
    rw [forwardSolve, hg,
      Finset.sum_attach (Finset.range 0)
        (fun j => sDep.M 0 j * forwardSolve sDep.M (ompGramRow prC sDep 0 0) j)]
    norm_num [Finset.sum_range_zero, sDep]
  have hzero : ompLkk prC sDep 0 0 = 0 := by
    unfold ompLkk
    rw [show sDep.k = 1 from rfl, Finset.sum_range_one, hfs]
    norm_num
  have hdep : ompLkk prC sDep 0 0 ≤ ompTol := by
    rw [hzero]
    unfold ompTol
    norm_num
  exact ⟨by decide, by decide, hdep,
    omp_dependence_break prC sDep.S 2 sDep (0, 0) 7 (by decide) (by decide) hdep⟩

unseal Rat.add Rat.mul Rat.inv Rat.sub in
/-- C6 counterexample: with the user band `[a_min, a_max] = [1/2, 2]` and a
final fitted amplitude exactly `a_min = 1/2` at `(n, p) = (0, 0)`, the pair
lies within the closed band, yet the output filter emits nothing: the
comparison on line 365 is strict. -/
theorem omp_band_boundary_cex :
    (prHalf.minAmp ≤ faHalf 0 0 ∧ faHalf 0 0 ≤ prHalf.maxAmp) ∧
      ompFinish prHalf 1 faHalf = [] := by decide

/-- C6 (amended): the OMP output filter emits a detection for exactly those
pairs `(n, p)` whose final fitted amplitude lies strictly inside the user
band `(a_min, a_max)` (boundary values are dropped), and every emitted
detection has `sample_index = p + nbefore`, `channel_index = 0`,
`cluster_index = n` and amplitude `α[n, p]`. -/
theorem omp_output_filter (pr : OmpParams) (P : ℕ) (fa : ℕ → ℕ → ℚ) (sp : Spike) :
    sp ∈ ompFinish pr P fa ↔
      ∃ n < pr.numTemplates, ∃ p < P,
        (pr.minAmp < fa n p ∧ fa n p < pr.maxAmp) ∧
          sp = ⟨((p + pr.nbefore : ℕ) : ℤ), 0, n, fa n p⟩ := by
  unfold ompFinish sortSpikes
  rw [(List.perm_insertionSort sampleLe _).mem_iff]
  unfold ompEmitList
  rw [List.mem_flatMap]
  constructor
  · rintro ⟨n, hn, hmem⟩
    rcases List.mem_filterMap.mp hmem with ⟨p, hp, hite⟩
    rw [List.mem_range] at hn hp
    by_cases hcond : pr.minAmp < fa n p ∧ fa n p < pr.maxAmp
    · rw [if_pos hcond, Option.some.injEq] at hite
      exact ⟨n, hn, p, hp, hcond, hite.symm⟩
    · rw [if_neg hcond] at hite
      exact absurd hite (by simp)
  · rintro ⟨n, hn, p, hp, hcond, rfl⟩
    exact ⟨n, List.mem_range.mpr hn,
      List.mem_filterMap.mpr ⟨p, List.mem_range.mpr hp, by rw [if_pos hcond]⟩⟩

/-- C7: for both engines, every parameter record, every input trace, every
loop fuel and (for the greedy engine) every peak detector, the detection
array returned by `main_function` is ordered by `sample_index` ascending
(non-decreasing): both engines end with
`spikes[np.argsort(spikes["sample_index"])]`. -/
theorem outputs_sorted (pr : OmpParams) (gp : GreedyParams)
    (det : (ℤ → ℕ → ℚ) → ℕ → List (ℤ × ℕ)) (traces traces' : ℤ → ℕ → ℚ)
    (Tlen Tlen' fuel : ℕ) :
    List.Sorted sampleLe (ompMain pr traces Tlen fuel) ∧
      List.Sorted sampleLe (greedyMain gp det traces' Tlen') := by
  constructor
  · simp only [ompMain, ompFinish, sortSpikes]
    exact List.sorted_insertionSort sampleLe _
  · simp only [greedyMain, sortSpikes]
    exact List.sorted_insertionSort sampleLe _

unseal Rat.add Rat.mul Rat.inv Rat.sub in
/-- C8 counterexample: with the amplitude band `(-1, 1)`, which strictly
contains `0`, running the OMP engine on a trace of all zeros emits a
detection for every `(n, p)` pair — the untouched zero amplitudes all pass
the strict band filter — rather than zero detections. -/
theorem zero_trace_cex : ompMain prBad zeroTraces 4 3 ≠ [] := by decide

/-- C8 (amended): on a trace of all zeros, the greedy engine (spec-modelled
external peak detector, nonnegative thresholds) produces zero detections;
the OMP engine produces zero detections provided `0` is not strictly inside
the amplitude band `(a_min, a_max)` — otherwise the zero amplitudes of the
never-selected grid all pass the filter (see the counterexample). -/
theorem zero_trace_no_detections (pr : OmpParams) (gp : GreedyParams) (thr : ℕ → ℚ)
    (Tlen Tlen' fuel : ℕ)
    (hstop : ∀ n, 0 ≤ pr.stopCrit n)
    (hband : ¬(pr.minAmp < 0 ∧ 0 < pr.maxAmp))
    (hthr : ∀ c, 0 ≤ thr c) :
    ompMain pr zeroTraces Tlen fuel = [] ∧
      greedyMain gp (specDetect thr gp.numChannels) zeroTraces Tlen' = [] := by
  constructor
  · have hpick : ∀ P : ℕ, ompPick pr P (ompInitS pr zeroTraces) = none := by
      intro P
      have hnil : ompValidPairs pr P (ompInitS pr zeroTraces) = [] := by
        rw [List.eq_nil_iff_forall_not_mem]
        intro np hmem
        rcases List.mem_flatMap.mp hmem with ⟨n, _, hmem2⟩
        rcases List.mem_filterMap.mp hmem2 with ⟨p, _, hite⟩
        by_cases hcond : ((pr.stopCrit n : ℚ) : WithBot ℚ) < ompInitS pr zeroTraces n p
        · unfold ompInitS at hcond
          by_cases hig : pr.ignored n
          · rw [if_pos hig] at hcond
            exact absurd hcond not_lt_bot
          · rw [if_neg hig] at hcond
            have hsc : ompScore pr zeroTraces n p = 0 := by
              simp [ompScore, zeroTraces]
            rw [hsc, WithBot.coe_lt_coe] at hcond
            exact absurd hcond (not_lt.mpr (hstop n))
        · rw [if_neg hcond] at hite
          exact absurd hite (by simp)
      unfold ompPick pickBest
      rw [hnil]
      rfl
    have hrun : ∀ P f : ℕ,
        ompRun pr (ompInitState pr zeroTraces).S P f (ompInitState pr zeroTraces) =
          ompInitState pr zeroTraces := by
      intro P f
      have hnext : ompNext pr (ompInitState pr zeroTraces).S P (ompInitState pr zeroTraces) =
          none := by
        unfold ompNext
        rw [show (ompInitState pr zeroTraces).S = ompInitS pr zeroTraces from rfl, hpick P]
      cases f with
      | zero => rw [ompRun]
      | succ f => rw [ompRun, hnext]
    have hemit : ompEmitList pr (Tlen - pr.numSamples + 1) (fun _ _ => 0) = [] := by
      rw [List.eq_nil_iff_forall_not_mem]
      intro sp hmem
      rcases List.mem_flatMap.mp hmem with ⟨n, _, hmem2⟩
      rcases List.mem_filterMap.mp hmem2 with ⟨p, _, hite⟩
      by_cases hcond : pr.minAmp < (0 : ℚ) ∧ (0 : ℚ) < pr.maxAmp
      · exact hband hcond
      · rw [if_neg hcond] at hite
        exact absurd hite (by simp)
    show ompFinish pr (Tlen - pr.numSamples + 1)
      (ompRun pr (ompInitState pr zeroTraces).S (Tlen - pr.numSamples + 1) fuel
        (ompInitState pr zeroTraces)).finalAmps = []
    rw [hrun]
    show sortSpikes (ompEmitList pr (Tlen - pr.numSamples + 1) (fun _ _ => 0)) = []
    rw [hemit]
    rfl
  · have hdet : specDetect thr gp.numChannels
        (fun t c => zeroTraces (t + ((gp.margin / 2 : ℕ) : ℤ)) c) (Tlen' - gp.margin) = [] := by
      rw [List.eq_nil_iff_forall_not_mem]
      intro x hx
      rcases List.mem_filterMap.mp hx with ⟨t, _, hmap⟩
      rcases Option.map_eq_some'.mp hmap with ⟨c, hfind, _⟩
      have hpred := List.find?_some hfind
      rw [decide_eq_true_eq] at hpred
      simp only [zeroTraces, abs_zero] at hpred
      exact absurd hpred (not_lt.mpr (hthr c))
    simp only [greedyMain]
    rw [hdet]
    have hjc : codeJitter gp.jitter ((Tlen' - gp.margin : ℕ) : ℤ) [] = [] := rfl
    have hds : dedupSortFirst ([] : List (ℤ × ℕ)) = [] := rfl
    rw [hjc, hds, ite_self]
    rfl

unseal Rat.add Rat.mul Rat.inv Rat.sub in
theorem zero_trace_no_detections_witness :
    (∀ n, 0 ≤ prC.stopCrit n) ∧ ¬(prC.minAmp < 0 ∧ 0 < prC.maxAmp) ∧ (∀ c, 0 ≤ thrC c) ∧
      ompMain prC zeroTraces 4 3 = [] ∧
      greedyMain gpC (specDetect thrC gpC.numChannels) zeroTraces 8 = [] :=
  have h1 : ∀ n, 0 ≤ prC.stopCrit n := fun _ => by show (0 : ℚ) ≤ 1; decide
  have h2 : ¬(prC.minAmp < 0 ∧ 0 < prC.maxAmp) := by decide
  have h3 : ∀ c, 0 ≤ thrC c := fun _ => by show (0 : ℚ) ≤ 1; decide
  ⟨h1, h2, h3, (zero_trace_no_detections prC gpC thrC 4 8 3 h1 h2 h3).1,
    (zero_trace_no_detections prC gpC thrC 4 8 3 h1 h2 h3).2⟩

end Circus
